import Mathlib

/-!
Verification development for the `buildpacks-deb-packages` buildpack.

The Rust sources are shallowly embedded: pure functions become Lean
functions, stateful code threads explicit state, machine integers are
`Nat` with explicit `% 2^32` where overflow matters, fallible code
returns `Except`/`Option`, and panics are modelled as a distinct error
outcome. Strings are Lean `String`s; the character-level algorithms of
the source (`str::split`, `str::trim`, ...) are embedded as `List Char`
functions and lifted.
-/

set_option maxHeartbeats 1000000

set_option maxRecDepth 8192

deriving instance DecidableEq for Except

/-! ## String utilities (embedding `str::split`, `str::trim`) -/

/-- Whitespace predicate used by `str::trim` (restricted to the ASCII
whitespace characters that can occur in the inputs we model). -/
def isRustWhitespace (c : Char) : Bool :=
  c = ' ' || c = '\t' || c = '\n' || c = '\r'

/-- Drop leading whitespace. -/
def trimLeftList (l : List Char) : List Char :=
  l.dropWhile isRustWhitespace

/-- Drop trailing whitespace. -/
def trimRightList (l : List Char) : List Char :=
  (l.reverse.dropWhile isRustWhitespace).reverse

/-- Embedding of Rust `str::trim`. -/
def trimList (l : List Char) : List Char :=
  trimRightList (trimLeftList l)

/-- Embedding of Rust `str::split(sep)` on a single separator character:
splits into the (possibly empty) pieces between occurrences of `sep`.
`split` never yields an empty list: the empty string gives `[[]]`. -/
def splitListChar (sep : Char) : List Char → List (List Char)
  | [] => [[]]
  | c :: cs =>
    let rest := splitListChar sep cs
    if c = sep then
      [] :: rest
    else
      match rest with
      | [] => [[c]]
      | piece :: pieces => (c :: piece) :: pieces

/-- String-level wrapper for `splitListChar`. -/
def splitOnCharS (sep : Char) (s : String) : List String :=
  (splitListChar sep s.data).map (fun l => ⟨l⟩)

/-- String-level wrapper for `trimList`. -/
def trimS (s : String) : String :=
  ⟨trimList s.data⟩

/-! ## `PackageName` (src/debian/package_name.rs) -/

/-- A Debian package name, as stored by the buildpack (a plain string,
validated at parse time). -/
structure PackageName where
  val : String
deriving DecidableEq, Repr

/-- Parse error carrying the offending input verbatim. -/
structure ParsePackageNameError where
  input : String
deriving DecidableEq, Repr

/-- Character class accepted anywhere in a package name by the source:
lower case letters, digits, `+`, `-`, `.`. -/
def packageNameCharOk (c : Char) : Bool :=
  ('a' ≤ c && c ≤ 'z') || ('0' ≤ c && c ≤ '9') || c = '+' || c = '-' || c = '.'

/-- Embedding of Rust `char::is_ascii_alphanumeric`. -/
def isAsciiAlphanumeric (c : Char) : Bool :=
  ('a' ≤ c && c ≤ 'z') || ('A' ≤ c && c ≤ 'Z') || ('0' ≤ c && c ≤ '9')

/-- Embedding of `starts_with(|c| c.is_ascii_alphanumeric())`:
true iff the string is nonempty and its first character is ASCII
alphanumeric. -/
def startsWithAsciiAlphanumeric (s : String) : Bool :=
  match s.data with
  | [] => false
  | c :: _ => isAsciiAlphanumeric c

/-- Embedding of `<PackageName as FromStr>::from_str`. -/
def PackageName.from_str (value : String) : Except ParsePackageNameError PackageName :=
  let is_valid_package_name :=
    value.data.all packageNameCharOk
      && value.data.length ≥ 2
      && startsWithAsciiAlphanumeric value
  if is_valid_package_name then
    .ok ⟨value⟩
  else
    .error ⟨value⟩

/-- Embedding of `<PackageName as Display>::fmt`: displays the stored
string unchanged. -/
def PackageName.display (p : PackageName) : String := p.val

/-- Specification-side definition, following the claim's words: `s`
matches the regular expression `^[a-z0-9][a-z0-9+.-]*$` and has length
at least 2. -/
def matchesPackageNameRegex (s : String) : Bool :=
  match s.data with
  | [] => false
  | c :: rest =>
    (('a' ≤ c && c ≤ 'z') || ('0' ≤ c && c ≤ '9'))
      && rest.all (fun d =>
          ('a' ≤ d && d ≤ 'z') || ('0' ≤ d && d ≤ '9') || d = '+' || d = '.' || d = '-')
      && s.data.length ≥ 2

/-! ## `RepositoryPackage` (src/debian/repository_package.rs) -/

/-- One stanza of a `Packages` index, as stored by the buildpack. -/
structure RepositoryPackage where
  repository_uri : String
  name : String
  version : String
  filename : String
  sha256sum : String
  depends : Option String
  pre_depends : Option String
  provides : Option String
deriving DecidableEq, Repr

/-- `HashSet::insert` determinized by insertion order: append the
element if it is not yet present. -/
def insertUnique (l : List String) (s : String) : List String :=
  if s ∈ l then l else l ++ [s]

/-- Embedding of `RepositoryPackage::get_dependencies`: for each of
`pre_depends` and `depends` (in that order, skipping absent fields),
split on `,`; for each piece take the part before the first space of
the trimmed piece, then the part before the first `:`, trim it, and
keep it when nonempty. -/
def RepositoryPackage.get_dependencies (p : RepositoryPackage) : List String :=
  ([p.pre_depends, p.depends].filterMap id).foldl
    (fun results field =>
      (splitOnCharS ',' field).foldl
        (fun results dependency =>
          match splitOnCharS ' ' (trimS dependency) with
          | [] => results
          | name :: _ =>
            let name :=
              match splitOnCharS ':' name with
              | [] => trimS name
              | virtual_package_name :: _ => trimS virtual_package_name
            if name ≠ "" then insertUnique results name else results)
        results)
    []

/-- Embedding of `RepositoryPackage::provides_dependencies`: the same
comma-split and space-split over the `provides` field. -/
def RepositoryPackage.provides_dependencies (p : RepositoryPackage) : List String :=
  match p.provides with
  | none => []
  | some provides =>
    (splitOnCharS ',' provides).foldl
      (fun results provide =>
        match splitOnCharS ' ' (trimS provide) with
        | [] => results
        | name :: _ =>
          let name := trimS name
          if name ≠ "" then insertUnique results name else results)
      []

/-- Claim-side algorithm for C3, following the claim's words: split on
`,`, whitespace-trim each entry, take the substring before the first
whitespace, strip a trailing `:any` qualifier (and only `:any`), take
everything before a `|`, and discard empty entries. -/
def claimC3Token (entry : String) : String :=
  let t := trimList entry.data
  let t := t.takeWhile (fun c => !(isRustWhitespace c))
  let t := if (":any").data.isSuffixOf t then t.take (t.length - 4) else t
  let t := t.takeWhile (fun c => !(c = '|'))
  ⟨t⟩

/-- Claim-side result set for C3 (unique names, insertion order). -/
def claimC3Dependencies (p : RepositoryPackage) : List String :=
  ([p.pre_depends, p.depends].filterMap id).foldl
    (fun results field =>
      (splitOnCharS ',' field).foldl
        (fun results entry =>
          let name := claimC3Token entry
          if name ≠ "" then insertUnique results name else results)
        results)
    []

/-- Amended specification for C3: split on `,`, whitespace-trim, take
the substring before the first space character, strip everything from
the first `:` onward (any qualifier, not only `:any`), trim again, and
discard empty entries; `|` receives no special treatment. -/
def amendedC3Token (entry : String) : String :=
  let t := trimList entry.data
  let t := t.takeWhile (fun c => !(c = ' '))
  let t := t.takeWhile (fun c => !(c = ':'))
  ⟨trimList t⟩

/-- Amended result set for C3. -/
def amendedC3Dependencies (p : RepositoryPackage) : List String :=
  ([p.pre_depends, p.depends].filterMap id).foldl
    (fun results field =>
      (splitOnCharS ',' field).foldl
        (fun results entry =>
          let name := amendedC3Token entry
          if name ≠ "" then insertUnique results name else results)
        results)
    []

/-! ## Debian version ordering

Modelled from the spec: `get_highest_available_version` parses each
candidate's version string "using the Debian version-comparison
algorithm (epoch, upstream, debian-revision with `~` rank)" via the
external `debversion` crate, which is not part of `src/`. The model
below parses `[epoch:]upstream[-revision]` and compares with the
Debian algorithm, encoding each alphanumeric part as a canonical
`List Nat` key compared lexicographically. -/

/-- ASCII digit test. -/
def isDigitC (c : Char) : Bool := '0' ≤ c && c ≤ '9'

/-- ASCII letter test. -/
def isAlphaC (c : Char) : Bool := ('a' ≤ c && c ≤ 'z') || ('A' ≤ c && c ≤ 'Z')

/-- Numeric value of a digit string (empty means 0, as in the Debian
algorithm). -/
def natOfDigits (l : List Char) : Nat :=
  l.foldl (fun n c => n * 10 + (c.toNat - '0'.toNat)) 0

/-- Rank of a non-digit character in the Debian ordering: `~` sorts
before everything (rank 0), then the end-of-string sentinel (1), then
the end-of-alpha-segment marker (2), then letters, then all other
characters. -/
def charRank (c : Char) : Nat :=
  if c = '~' then 0 else if isAlphaC c then 3 + c.toNat else 300 + c.toNat

/-- Canonical key of one version part: alternate maximal non-digit and
digit runs; a non-digit run contributes its character ranks followed by
the marker 2, a digit run contributes its numeric value; the whole key
ends with the sentinel 1. Comparing keys lexicographically implements
the Debian part comparison. Fuel bounds the recursion by the input
length. -/
def canonAux : Nat → List Char → List Nat
  | 0, _ => [1]
  | _ + 1, [] => [1]
  | fuel + 1, l =>
    let alpha := l.takeWhile (fun c => !(isDigitC c))
    let rest₁ := l.dropWhile (fun c => !(isDigitC c))
    let digits := rest₁.takeWhile isDigitC
    let rest₂ := rest₁.dropWhile isDigitC
    (alpha.map charRank) ++ [2, natOfDigits digits] ++ canonAux fuel rest₂

/-- Canonical key of a version part. -/
def canonPart (l : List Char) : List Nat := canonAux l.length l

/-- A parsed Debian version: numeric epoch plus canonical keys of the
upstream part and the debian revision. -/
structure DebVersion where
  epoch : Nat
  upstream : List Nat
  revision : List Nat
deriving DecidableEq, Repr

/-- Lexicographic strict order on `List Nat`. -/
def listLexLT : List Nat → List Nat → Bool
  | [], [] => false
  | [], _ :: _ => true
  | _ :: _, [] => false
  | a :: as, b :: bs => a < b || (a = b && listLexLT as bs)

/-- Strict Debian version order: epoch, then upstream key, then
revision key. -/
def verLT (a b : DebVersion) : Bool :=
  a.epoch < b.epoch
    || (a.epoch = b.epoch
        && (listLexLT a.upstream b.upstream
            || (a.upstream = b.upstream && listLexLT a.revision b.revision)))

/-- Non-strict Debian version order. -/
def verLE (a b : DebVersion) : Bool := !(verLT b a)

/-- Character set accepted in the upstream part. -/
def upstreamCharOk (c : Char) : Bool :=
  isAlphaC c || isDigitC c || c = '.' || c = '+' || c = '~' || c = '-' || c = ':'

/-- Character set accepted in the revision part. -/
def revisionCharOk (c : Char) : Bool :=
  isAlphaC c || isDigitC c || c = '.' || c = '+' || c = '~'

/-- Modelled from the spec: parse `[epoch:]upstream[-revision]`. The
epoch (before the first `:`, when any `:` occurs) must be a nonempty
digit string; the revision is the part after the last `-` (defaulting
to `0`); the upstream part must be nonempty and all characters must be
in the accepted sets. Returns `none` for an invalid version. -/
def debVersionFromStr (s : String) : Option DebVersion :=
  let l := s.data
  let (epochDigits, rest) :=
    if l.any (fun c => c = ':') then
      (l.takeWhile (fun c => !(c = ':')), (l.dropWhile (fun c => !(c = ':'))).drop 1)
    else
      ([], l)
  let epochOk := !(l.any (fun c => c = ':')) || (!epochDigits.isEmpty && epochDigits.all isDigitC)
  let (upstream, revision) :=
    if rest.any (fun c => c = '-') then
      (((rest.reverse.dropWhile (fun c => !(c = '-'))).drop 1).reverse,
        (rest.reverse.takeWhile (fun c => !(c = '-'))).reverse)
    else
      (rest, ['0'])
  if epochOk && !upstream.isEmpty && upstream.all upstreamCharOk && revision.all revisionCharOk then
    some ⟨natOfDigits epochDigits, canonPart upstream, canonPart revision⟩
  else
    none

/-! ## `PackageIndex` (src/debian/package_index.rs) -/

/-- The in-memory package index: `IndexMap`s are embedded as
insertion-ordered association lists. -/
structure PackageIndex where
  name_to_repository_packages : List (String × List RepositoryPackage)
  virtual_package_to_implementing_packages : List (String × List RepositoryPackage)
  packages_indexed : Nat
deriving DecidableEq, Repr

/-- The `Default` index: both maps empty, zero count. -/
def PackageIndex.default : PackageIndex := ⟨[], [], 0⟩

/-- `IndexMap::entry(k).or_default().push(v)`: append `v` to the list
at key `k`, creating the entry at the end when absent. -/
def assocAppend (m : List (String × List RepositoryPackage)) (k : String)
    (v : RepositoryPackage) : List (String × List RepositoryPackage) :=
  if m.any (fun kv => kv.1 = k) then
    m.map (fun kv => if kv.1 = k then (kv.1, kv.2 ++ [v]) else kv)
  else
    m ++ [(k, [v])]

/-- `IndexMap::get`. -/
def assocFind (m : List (String × List RepositoryPackage)) (k : String) :
    Option (List RepositoryPackage) :=
  (m.find? (fun kv => kv.1 = k)).map (fun kv => kv.2)

/-- Embedding of `PackageIndex::add_package`. -/
def PackageIndex.add_package (idx : PackageIndex) (package : RepositoryPackage) : PackageIndex :=
  { name_to_repository_packages :=
      assocAppend idx.name_to_repository_packages package.name package
    virtual_package_to_implementing_packages :=
      package.provides_dependencies.foldl
        (fun m provides => assocAppend m provides package)
        idx.virtual_package_to_implementing_packages
    packages_indexed := idx.packages_indexed + 1 }

/-- Parse the version of every candidate, in order; `none` models the
`expect` panic at the first invalid version. -/
def parseVersions : List RepositoryPackage → Option (List (RepositoryPackage × DebVersion))
  | [] => some []
  | p :: ps =>
    match debVersionFromStr p.version with
    | none => none
    | some v => (parseVersions ps).map (fun rest => (p, v) :: rest)

/-- The comparator passed to `sort_by`: descending by parsed version. -/
def sortDescByVersion (pairs : List (RepositoryPackage × DebVersion)) :
    List (RepositoryPackage × DebVersion) :=
  List.insertionSort (fun x y => verLE y.2 x.2 = true) pairs

/-- Embedding of `PackageIndex::get_highest_available_version`. The
`expect` on an invalid stored version string is modelled as the
`.error` outcome (a panic, not a returned error value). -/
def PackageIndex.get_highest_available_version (idx : PackageIndex) (package_name : String) :
    Except String (Option RepositoryPackage) :=
  match assocFind idx.name_to_repository_packages package_name with
  | none => .ok none
  | some repository_packages =>
    match parseVersions repository_packages with
    | none => .error "Packages should always have a valid debian version"
    | some pairs => .ok ((sortDescByVersion pairs).head?.map Prod.fst)

/-- Embedding of `PackageIndex::get_providers`: the `IndexSet` of the
implementors' names, in insertion order. -/
def PackageIndex.get_providers (idx : PackageIndex) (package : String) : List String :=
  match assocFind idx.virtual_package_to_implementing_packages package with
  | none => []
  | some provides => provides.foldl (fun acc p => insertUnique acc p.name) []

/-! ## Resolver (src/determine_packages_to_install.rs) -/

/-- One stanza of `/var/lib/dpkg/status`. -/
structure SystemPackage where
  package_name : String
  package_version : String
deriving DecidableEq, Repr

/-- A package selected for installation together with the top-level
requested package that caused it. -/
structure PackageMarkedForInstall where
  repository_package : RepositoryPackage
  requested_by : String
deriving DecidableEq, Repr

/-- Notifications produced while resolving one requested package. -/
inductive PackageNotification
  | added (repository_package : RepositoryPackage) (dependency_path : List String)
  | alreadyInstalledOnSystem (system_package_name system_package_version : String)
  | alreadyInstalledByOtherPackage (installed_package : RepositoryPackage) (installed_by : String)
  | virtualPackageHasOnlyOneImplementor (requested_package : String)
      (implementor : RepositoryPackage)
deriving DecidableEq, Repr

/-- Errors of `determine_packages_to_install`; the `expect` panic of
`get_highest_available_version` is modelled as its own outcome. -/
inductive DeterminePackagesToInstallError
  | packageNotFound (name : String)
  | virtualPackageMustBeSpecified (name : String) (providers : List String)
  | panicInvalidVersion
deriving DecidableEq, Repr

/-- `IndexSet::insert` determinized by insertion order. -/
def indexSetInsert {α : Type} [DecidableEq α] (l : List α) (a : α) : List α :=
  if a ∈ l then l else l ++ [a]

/-- Embedding of `get_provider_for_virtual_package`: resolve a name
with no concrete package through the virtual-package map, recording the
one-implementor notification. -/
def get_provider_for_virtual_package (package_index : PackageIndex) (package : String)
    (package_install_details : List PackageNotification) :
    Except DeterminePackagesToInstallError (RepositoryPackage × List PackageNotification) :=
  let providers := package_index.get_providers package
  match providers with
  | [providing_package] =>
    match package_index.get_highest_available_version providing_package with
    | .error _ => .error .panicInvalidVersion
    | .ok none => .error (.packageNotFound package)
    | .ok (some repository_package) =>
      .ok (repository_package,
        indexSetInsert package_install_details
          (.virtualPackageHasOnlyOneImplementor package repository_package))
  | [] => .error (.packageNotFound package)
  | _ => .error (.virtualPackageMustBeSpecified package providers)

/-- The mutable state threaded through `visit`. -/
structure VisitState where
  packages_marked_for_install : List PackageMarkedForInstall
  visit_stack : List String
  package_notifications : List PackageNotification
deriving DecidableEq, Repr

/-- Embedding of `visit`. The `Nat` argument is recursion fuel (`none`
means the fuel ran out; the Rust recursion is bounded by the index
size, see the fuel-monotonicity lemma). The dependency loop threads the
state through `foldl`, short-circuiting on error or fuel exhaustion. -/
def visit : Nat → String → Bool → List SystemPackage → PackageIndex → VisitState →
    Option (Except DeterminePackagesToInstallError VisitState)
  | 0, _, _, _, _, _ => none
  | fuel + 1, package, skip_dependencies, system_packages, package_index, st =>
    match system_packages.find? (fun sp => sp.package_name = package) with
    | some system_package =>
      let notifs := indexSetInsert st.package_notifications
        (.alreadyInstalledOnSystem system_package.package_name system_package.package_version)
      some (.ok { st with package_notifications := notifs })
    | none =>
      match st.packages_marked_for_install.find?
          (fun m => package = m.repository_package.name) with
      | some package_marked_for_install =>
        let notifs := indexSetInsert st.package_notifications
          (.alreadyInstalledByOtherPackage package_marked_for_install.repository_package
            package_marked_for_install.requested_by)
        some (.ok { st with package_notifications := notifs })
      | none =>
        match package_index.get_highest_available_version package with
        | .error _ => some (.error .panicInvalidVersion)
        | .ok (some repository_package) =>
          let marked := st.packages_marked_for_install ++
            [⟨repository_package, st.visit_stack.headD package⟩]
          let notifs := indexSetInsert st.package_notifications
            (.added repository_package st.visit_stack)
          let stack := indexSetInsert st.visit_stack repository_package.name
          let st₂ : VisitState := ⟨marked, stack, notifs⟩
          let res : Option (Except DeterminePackagesToInstallError VisitState) :=
            if skip_dependencies then some (.ok st₂)
            else
              repository_package.get_dependencies.foldl
                (fun (acc : Option (Except DeterminePackagesToInstallError VisitState))
                    dependency =>
                  match acc with
                  | some (.ok stAcc) =>
                    if (system_packages.find?
                          (fun sp => sp.package_name = dependency)).isNone
                        && (stAcc.packages_marked_for_install.find?
                            (fun m => dependency = m.repository_package.name)).isNone then
                      visit fuel dependency skip_dependencies system_packages
                        package_index stAcc
                    else acc
                  | _ => acc)
                (some (.ok st₂))
          match res with
          | some (.ok st₃) =>
            some (.ok { st₃ with
              visit_stack := st₃.visit_stack.erase repository_package.name })
          | other => other
        | .ok none =>
          match get_provider_for_virtual_package package_index package
              st.package_notifications with
          | .error e => some (.error e)
          | .ok (virtual_package_provider, notifs) =>
            let st₁ : VisitState :=
              ⟨st.packages_marked_for_install, indexSetInsert st.visit_stack package, notifs⟩
            match visit fuel virtual_package_provider.name skip_dependencies
                system_packages package_index st₁ with
            | some (.ok st₂) =>
              some (.ok { st₂ with visit_stack := st₂.visit_stack.erase package })
            | other => other

/-! ## Distro and the packages-layer metadata (src/install_packages.rs) -/

/-- The two supported architectures (src/debian/architecture_name.rs). -/
inductive ArchitectureName
  | amd_64
  | arm_64
deriving DecidableEq, Repr

/-- The supported distribution codenames (src/debian/distro_codename.rs). -/
inductive DistroCodename
  | jammy
  | noble
deriving DecidableEq, Repr

/-- One APT source (src/debian/source.rs). -/
structure Source where
  arch : ArchitectureName
  components : List String
  signed_by : String
  suites : List String
  uri : String
deriving DecidableEq, Repr

/-- Modelled from the spec: the `Distro` record
`{ os, version, codename, architecture, sources }` (the file
`src/debian/distro.rs` is declared in `mod.rs` but is not present under
`src/`). Only its value equality matters here. -/
structure Distro where
  os : String
  version : String
  codename : DistroCodename
  architecture : ArchitectureName
  sources : List Source
deriving DecidableEq, Repr

/-- The packages-layer cache metadata: per-package checksums (a map,
embedded as an association list) plus the distro. -/
structure InstallationMetadata where
  package_checksums : List (String × String)
  distro : Distro
deriving DecidableEq, Repr

/-- The framework's restored-layer decisions. -/
inductive RestoredLayerAction
  | delete_layer
  | keep_layer
deriving DecidableEq, Repr

/-- Embedding of the `restored_layer_action` closure passed to
`cached_layer` in `install_packages`: the source compares the restored
metadata with the new metadata, but returns
`RestoredLayerAction::DeleteLayer` on both branches
(`KeepLayer` is commented out in the equal branch). -/
def restored_layer_action (old_metadata new_metadata : InstallationMetadata) :
    RestoredLayerAction :=
  if old_metadata = new_metadata then
    RestoredLayerAction.delete_layer
  else
    RestoredLayerAction.delete_layer

/-- The new metadata computed at the top of `install_packages`. -/
def new_installation_metadata (distro : Distro)
    (packages_to_install : List RepositoryPackage) : InstallationMetadata :=
  ⟨packages_to_install.map (fun package => (package.name, package.sha256sum)), distro⟩

/-! ## SHA-256 (the `sha2` crate's standard algorithm, embedded) -/

/-- Truncate to 32 bits. -/
def w32 (n : Nat) : Nat := n % 4294967296

/-- 32-bit complement. -/
def not32 (n : Nat) : Nat := 4294967295 - n

/-- 32-bit right rotation. -/
def rotr32 (n x : Nat) : Nat := (x >>> n) ||| (w32 (x <<< (32 - n)))

/-- The SHA-256 round constants (decimal). -/
def sha256K : List Nat :=
  [1116352408, 1899447441, 3049323471, 3921009573, 961987163,
   1508970993, 2453635748, 2870763221, 3624381080, 310598401,
   607225278, 1426881987, 1925078388, 2162078206, 2614888103,
   3248222580, 3835390401, 4022224774, 264347078, 604807628,
   770255983, 1249150122, 1555081692, 1996064986, 2554220882,
   2821834349, 2952996808, 3210313671, 3336571891, 3584528711,
   113926993, 338241895, 666307205, 773529912, 1294757372,
   1396182291, 1695183700, 1986661051, 2177026350, 2456956037,
   2730485921, 2820302411, 3259730800, 3345764771, 3516065817,
   3600352804, 4094571909, 275423344, 430227734, 506948616,
   659060556, 883997877, 958139571, 1322822218, 1537002063,
   1747873779, 1955562222, 2024104815, 2227730452, 2361852424,
   2428436474, 2756734187, 3204031479, 3329325298]

/-- The SHA-256 initial hash state (decimal). -/
def sha256H0 : List Nat :=
  [1779033703, 3144134277, 1013904242, 2773480762,
   1359893119, 2600822924, 528734635, 1541459225]

/-- Big-endian byte encoding of `v` on `n` bytes. -/
def bytesBE (n v : Nat) : List Nat :=
  (List.range n).map (fun i => (v >>> (8 * (n - 1 - i))) % 256)

/-- SHA-256 padding: append `0x80`, zeros, then the 64-bit big-endian
bit length, to a multiple of 64 bytes. -/
def sha256Pad (msg : List Nat) : List Nat :=
  let len := msg.length
  let k := (64 + 56 - ((len + 1) % 64)) % 64
  msg ++ [0x80] ++ List.replicate k 0 ++ bytesBE 8 (len * 8)

/-- Split a list into chunks of `n` elements (fuel-bounded). -/
def chunksOfAux {α : Type} (n : Nat) : Nat → List α → List (List α)
  | 0, _ => []
  | _ + 1, [] => []
  | fuel + 1, l => l.take n :: chunksOfAux n fuel (l.drop n)

/-- Split a list into chunks of `n` elements. -/
def chunksOf {α : Type} (n : Nat) (l : List α) : List (List α) :=
  chunksOfAux n l.length l

/-- The 16 initial 32-bit words of a 64-byte chunk (big-endian). -/
def words16 (chunk : List Nat) : List Nat :=
  (chunksOf 4 chunk).map (fun b =>
    (b.getD 0 0) * 16777216 + (b.getD 1 0) * 65536 + (b.getD 2 0) * 256 + b.getD 3 0)

/-- Extend 16 words to the 64-word message schedule. -/
def sha256Schedule (ws : List Nat) : List Nat :=
  (List.range 48).foldl
    (fun w _ =>
      let i := w.length
      let s0v := rotr32 7 (w.getD (i - 15) 0) ^^^ rotr32 18 (w.getD (i - 15) 0)
        ^^^ ((w.getD (i - 15) 0) >>> 3)
      let s1v := rotr32 17 (w.getD (i - 2) 0) ^^^ rotr32 19 (w.getD (i - 2) 0)
        ^^^ ((w.getD (i - 2) 0) >>> 10)
      w ++ [w32 ((w.getD (i - 16) 0) + s0v + (w.getD (i - 7) 0) + s1v)])
    ws

/-- One SHA-256 compression round over one 64-byte chunk. -/
def sha256Compress (h : List Nat) (chunk : List Nat) : List Nat :=
  let ws := sha256Schedule (words16 chunk)
  let final := (ws.zip sha256K).foldl
    (fun (st : List Nat) wk =>
      match st with
      | [a, b, c, d, e, f, g, hh] =>
        let bigS1 := rotr32 6 e ^^^ rotr32 11 e ^^^ rotr32 25 e
        let ch := (e &&& f) ^^^ (not32 e &&& g)
        let temp1 := w32 (hh + bigS1 + ch + wk.2 + wk.1)
        let bigS0 := rotr32 2 a ^^^ rotr32 13 a ^^^ rotr32 22 a
        let maj := (a &&& b) ^^^ (a &&& c) ^^^ (b &&& c)
        let temp2 := w32 (bigS0 + maj)
        [w32 (temp1 + temp2), a, b, c, w32 (d + temp1), e, f, g]
      | _ => st)
    h
  (h.zip final).map (fun p => w32 (p.1 + p.2))

/-- SHA-256 digest of a byte list, as eight 32-bit words. -/
def sha256Words (msg : List Nat) : List Nat :=
  (chunksOf 64 (sha256Pad msg)).foldl sha256Compress sha256H0

/-- Lowercase hexadecimal digit. -/
def hexDigit (n : Nat) : Char :=
  ("0123456789abcdef").data.getD n 'x'

/-- Lowercase hexadecimal rendering of one 32-bit word. -/
def wordToHex (v : Nat) : List Char :=
  (List.range 8).map (fun i => hexDigit ((v >>> (4 * (7 - i))) % 16))

/-- Embedding of `format!("{:x}", hasher.finalize())`: the lowercase
hexadecimal SHA-256 digest of the downloaded bytes. -/
def sha256hex (msg : List Nat) : String :=
  ⟨(sha256Words msg).foldl (fun acc w => acc ++ wordToHex w) []⟩

/-! ## Installer: download and extract (src/install_packages.rs) -/

/-- An entry of a `data.tar.*` / `control.tar.*` archive inside a
`.deb`: a relative path and the file bytes. -/
structure TarEntry where
  path : List String
  content : List Nat
deriving DecidableEq, Repr

/-- One member of the outer `ar` archive: its identifier (file name)
and, for tar members, the entries obtained after decompression (the
decompressors themselves are external library behavior). -/
structure ArMember where
  identifier : String
  entries : List TarEntry
deriving DecidableEq, Repr

/-- The errors of `install_packages` that the model can produce. -/
inductive InstallPackagesError
  | invalidFilename (name filename : String)
  | checksumFailed (url expected actual : String)
  | unsupportedCompression (ext : String)
deriving DecidableEq, Repr

/-- The observable effects of the extract step: files written under the
layer root and the commands executed. -/
structure ExtractState where
  files : List (List String × List Nat)
  executed : List (List String)
deriving DecidableEq, Repr

/-- `Path::file_stem` / `Path::extension` on a file name: split at the
last `.`, provided that dot is not the leading character. -/
def lastDotSplit (l : List Char) : Option (List Char × List Char) :=
  let r := l.reverse
  let ext := r.takeWhile (fun c => !(c = '.'))
  let rest := r.dropWhile (fun c => !(c = '.'))
  match rest with
  | [] => none
  | _ :: stemRev => if stemRev.isEmpty then none else some (stemRev.reverse, ext.reverse)

/-- The inner-tar compressions the installer supports. -/
def supportedCompression (ext : List Char) : Bool :=
  ext = ("gz").data || ext = ("zstd").data || ext = ("zst").data || ext = ("xz").data

/-- The `while let Some(entry) = debian_archive.next_entry()` loop of
`extract`, threading the layer state and the `postinst_script_path`
variable; returns the state, the pending postinst path, and the first
error. -/
def extractLoop : List ArMember → ExtractState → Option (List String) →
    ExtractState × Option (List String) × Option InstallPackagesError
  | [], st, postinst_script_path => (st, postinst_script_path, none)
  | m :: ms, st, postinst_script_path =>
    match lastDotSplit m.identifier.data with
    | some (stem, ext) =>
      if stem = ("data.tar").data then
        if supportedCompression ext then
          extractLoop ms
            { st with files := st.files ++ m.entries.map (fun e => (e.path, e.content)) }
            postinst_script_path
        else
          (st, postinst_script_path, some (.unsupportedCompression ⟨ext⟩))
      else if stem = ("control.tar").data then
        if supportedCompression ext then
          let acc := m.entries.foldl
            (fun (acc : List (List String × List Nat) × Option (List String)) e =>
              if e.path.getLast? = some "postinst" then
                (acc.1 ++ [(e.path, e.content)], some e.path)
              else acc)
            (st.files, postinst_script_path)
          extractLoop ms { st with files := acc.1 } acc.2
        else
          (st, postinst_script_path, some (.unsupportedCompression ⟨ext⟩))
      else
        extractLoop ms st postinst_script_path
    | none => extractLoop ms st postinst_script_path

/-- Embedding of `extract`: process every `ar` member, then, if a
postinst script was found, mark it executable and run it. -/
def extract (archive : List ArMember) (st : ExtractState) :
    ExtractState × Option InstallPackagesError :=
  match extractLoop archive st none with
  | (st', postinst_script_path, none) =>
    match postinst_script_path with
    | some p => ({ st' with executed := st'.executed ++ [p] }, none)
    | none => (st', none)
  | (st', _, some e) => (st', some e)

/-- Embedding of `build_download_url`. -/
def build_download_url (repository_package : RepositoryPackage) : String :=
  repository_package.repository_uri ++ "/" ++ repository_package.filename

/-- `PathBuf::file_name` of the `filename` field: the last nonempty
`/`-separated segment, unless it is `..`. -/
def fileNameOf (filename : String) : Option String :=
  match ((splitOnCharS '/' filename).filter (fun s => s ≠ "")).getLast? with
  | none => none
  | some seg => if seg = ".." then none else some seg

/-- Embedding of `download`, with the response body supplied as the
byte list the stream produced: derive the local file name, then hash
the bytes and compare with the declared checksum; return the bytes of
the downloaded file on success. -/
def download (repository_package : RepositoryPackage) (body : List Nat) :
    Except InstallPackagesError (List Nat) :=
  let download_url := build_download_url repository_package
  match fileNameOf repository_package.filename with
  | none =>
    .error (.invalidFilename repository_package.name repository_package.filename)
  | some _ =>
    let calculated_hash := sha256hex body
    let hash := repository_package.sha256sum
    if hash ≠ calculated_hash then
      .error (.checksumFailed download_url hash calculated_hash)
    else
      .ok body

/-- Embedding of `download_and_extract`: `extract` runs only when
`download` succeeded. `archive` stands for the parsed `ar` content of
the downloaded file (the parser is external library behavior). -/
def download_and_extract (repository_package : RepositoryPackage) (body : List Nat)
    (archive : List ArMember) (st : ExtractState) :
    ExtractState × Option InstallPackagesError :=
  match download repository_package body with
  | .error e => (st, some e)
  | .ok _ => extract archive st

/-! ### Specification-side recomputation of `extract` (for C2) -/

/-- The error a member raises, if any: a `data.tar.*` or
`control.tar.*` member with an unsupported extension. -/
def specBadMember (m : ArMember) : Option InstallPackagesError :=
  match lastDotSplit m.identifier.data with
  | some (stem, ext) =>
    if (stem = ("data.tar").data || stem = ("control.tar").data)
        && !supportedCompression ext then
      some (.unsupportedCompression ⟨ext⟩)
    else none
  | none => none

/-- The files a member writes into the layer: all entries of a
supported `data.tar.*`, the `postinst` entries of a supported
`control.tar.*`, nothing otherwise. -/
def specMemberFiles (m : ArMember) : List (List String × List Nat) :=
  match lastDotSplit m.identifier.data with
  | some (stem, ext) =>
    if stem = ("data.tar").data && supportedCompression ext then
      m.entries.map (fun e => (e.path, e.content))
    else if stem = ("control.tar").data && supportedCompression ext then
      (m.entries.filter (fun e => e.path.getLast? = some "postinst")).map
        (fun e => (e.path, e.content))
    else []
  | none => []

/-- The postinst paths a member contributes. -/
def specMemberPostinsts (m : ArMember) : List (List String) :=
  match lastDotSplit m.identifier.data with
  | some (stem, ext) =>
    if stem = ("control.tar").data && supportedCompression ext then
      (m.entries.filter (fun e => e.path.getLast? = some "postinst")).map (fun e => e.path)
    else []
  | none => []

/-- Specification-side `extract` for the amended C2: members are
processed in order up to the first `data.tar.*`/`control.tar.*` member
with an unsupported extension; supported `data.tar.*` members write all
their entries, supported `control.tar.*` members write exactly their
`postinst` entries, all other members write nothing; when no error
occurred, the last `postinst` found (if any) is executed after the
loop. -/
def specExtract (archive : List ArMember) (st : ExtractState) :
    ExtractState × Option InstallPackagesError :=
  let good := archive.takeWhile (fun m => (specBadMember m).isNone)
  let rest := archive.dropWhile (fun m => (specBadMember m).isNone)
  let files := st.files ++ good.flatMap specMemberFiles
  match rest with
  | bad :: _ => (⟨files, st.executed⟩, specBadMember bad)
  | [] =>
    match (good.flatMap specMemberPostinsts).getLast? with
    | some p => (⟨files, st.executed ++ [p]⟩, none)
    | none => (⟨files, st.executed⟩, none)

/-! ## Environment synthesis (src/install_packages.rs) -/

/-- One entry of the extracted layer tree: a path relative to the layer
root and whether it is a directory. The list order is the walk order. -/
structure FsEntry where
  path : List String
  isDir : Bool
deriving DecidableEq, Repr

/-- The extracted layer tree. -/
abbrev FileSystem := List FsEntry

/-- The loop of `shared_library_file`: repeatedly split the final name
component at its last dot; true as soon as some extension equals
`so`. Fuel bounds the recursion by the component length. -/
def sharedLibraryFileAux : Nat → List Char → Bool
  | 0, _ => false
  | fuel + 1, name =>
    match lastDotSplit name with
    | some (stem, ext) =>
      if ext = ("so").data then true else sharedLibraryFileAux fuel stem
    | none => false

/-- Embedding of `shared_library_file`: extension stripping happens on
the final path component. -/
def shared_library_file (path : List String) : Bool :=
  match path.getLast? with
  | none => false
  | some component => sharedLibraryFileAux component.data.length component.data

/-- Byte length of the joined path (each component preceded by `/`);
the constant layer-root prefix is shared by all compared paths. -/
def pathLen (p : List String) : Nat :=
  p.foldl (fun n component => n + 1 + component.utf8ByteSize) 0

/-- Embedding of `find_all_dirs_containing`: if the starting directory
exists, walk it (the directory itself and everything under it, in tree
order), record the parent of every entry satisfying `condition`, and
order the result longest-path-first (`sort_by_key(Reverse(len))`,
stable). -/
def find_all_dirs_containing (fs : FileSystem) (starting_dir : List String)
    (condition : List String → Bool) : List (List String) :=
  let found :=
    if fs.any (fun e => e.path = starting_dir) then
      (fs.filter (fun e => starting_dir.isPrefixOf e.path)).filterMap
        (fun e => if condition e.path then some e.path.dropLast else none)
    else []
  List.insertionSort (fun a b => pathLen b ≤ pathLen a) found

/-- The four library roots, in the order of `configure_layer_environment`. -/
def libraryRoots (multiarch_name : String) : List (List String) :=
  [["usr", "lib", multiarch_name], ["usr", "lib"], ["lib", multiarch_name], ["lib"]]

/-- Embedding of the `library_paths` fold of
`configure_layer_environment`: an `IndexSet` accumulated over the four
roots; for each root, first the discovered directories, then the root
itself. This is the value prepended to `LD_LIBRARY_PATH` and
`LIBRARY_PATH`. -/
def library_paths (fs : FileSystem) (multiarch_name : String) : List (List String) :=
  (libraryRoots multiarch_name).foldl
    (fun acc lib_dir =>
      let acc := (find_all_dirs_containing fs lib_dir shared_library_file).foldl
        indexSetInsert acc
      indexSetInsert acc lib_dir)
    []

/-- Claim-side predicate for C8: directory `d` transitively contains a
shared-library file (some non-directory entry below `d` whose name
matches the `.so` rule). -/
def transitivelyContainsSharedLib (fs : FileSystem) (d : List String) : Bool :=
  fs.any (fun e => d.isPrefixOf e.path && !e.isDir && shared_library_file e.path)

/-- Amended per-root directory list for C8: the immediate parents of
the walked entries (under an existing root) whose final name component
matches the shared-library rule, longest-path-first (stable). -/
def amendedC8DirsFor (fs : FileSystem) (root : List String) : List (List String) :=
  if fs.any (fun e => e.path = root) then
    List.insertionSort (fun a b => pathLen b ≤ pathLen a)
      (((fs.filter (fun e => root.isPrefixOf e.path)).filter
          (fun e => shared_library_file e.path)).map (fun e => e.path.dropLast))
  else []

/-- Keep the first occurrence of each element. -/
def dedupKeepFirst {α : Type} [DecidableEq α] (l : List α) : List α :=
  l.foldl indexSetInsert []

/-- Amended C8 result: concatenate, for each root in order, the
per-root directory list followed by the root itself, and keep first
occurrences. -/
def amendedC8LibraryPaths (fs : FileSystem) (multiarch_name : String) : List (List String) :=
  dedupKeepFirst
    ((libraryRoots multiarch_name).flatMap (fun root => amendedC8DirsFor fs root ++ [root]))

/-! ## `RequestedPackage` from TOML (src/config/requested_package.rs) -/

/-- The TOML values the parser distinguishes. -/
inductive TomlValue
  | str (s : String)
  | boolean (b : Bool)
  | inlineTable (entries : List (String × TomlValue))
  | array (elems : List TomlValue)
  | other

/-- `Value::as_str`. -/
def TomlValue.as_str : TomlValue → Option String
  | .str s => some s
  | _ => none

/-- `Value::as_bool`. -/
def TomlValue.as_bool : TomlValue → Option Bool
  | .boolean b => some b
  | _ => none

/-- `Value::as_inline_table`. -/
def TomlValue.as_inline_table : TomlValue → Option (List (String × TomlValue))
  | .inlineTable t => some t
  | _ => none

/-- `Value::as_array`. -/
def TomlValue.as_array : TomlValue → Option (List TomlValue)
  | .array l => some l
  | _ => none

/-- `InlineTable::get` (TOML keys are unique; first match). -/
def tableGet (table : List (String × TomlValue)) (k : String) : Option TomlValue :=
  (table.find? (fun kv => kv.1 = k)).map (fun kv => kv.2)

/-- A requested package as parsed from `project.toml`. -/
structure RequestedPackage where
  name : PackageName
  skip_dependencies : Bool
  force : Bool
  env : Option (List (String × String))
  commands : List String
deriving DecidableEq, Repr

/-- Errors of the `project.toml` install-entry parser. -/
inductive ParseRequestedPackageError
  | invalidPackageName (e : ParsePackageNameError)
  | unexpectedTomlValue
deriving DecidableEq, Repr

/-- Embedding of `TryFrom<&InlineTable> for RequestedPackage`. -/
def RequestedPackage.try_from_inline_table (table : List (String × TomlValue)) :
    Except ParseRequestedPackageError RequestedPackage :=
  match PackageName.from_str (((tableGet table "name").bind TomlValue.as_str).getD "") with
  | .error e => .error (.invalidPackageName e)
  | .ok name =>
    .ok
      { name := name
        skip_dependencies :=
          ((tableGet table "skip_dependencies").bind TomlValue.as_bool).getD false
        force := ((tableGet table "force").bind TomlValue.as_bool).getD false
        env := ((tableGet table "env").bind TomlValue.as_inline_table).map
          (fun t => t.filterMap (fun kv => kv.2.as_str.map (fun v => (kv.1, v))))
        commands := (((tableGet table "commands").bind TomlValue.as_array).map
          (fun arr => arr.filterMap TomlValue.as_str)).getD [] }

/-- The keys that influence the parsed `RequestedPackage`. -/
def recognizedInstallKeys : List String :=
  ["name", "skip_dependencies", "force", "env", "commands"]

/-- An inline table restricted to the recognized keys. -/
def filterRecognized (table : List (String × TomlValue)) : List (String × TomlValue) :=
  table.filter (fun kv => kv.1 ∈ recognizedInstallKeys)

/-! ## A three-package dependency cycle (src test scenario for the resolver) -/

/-- A name containing no separator and no whitespace characters: the
splitting and trimming of `get_dependencies` leave it unchanged. -/
def goodName (s : String) : Bool :=
  !s.data.isEmpty && s.data.all (fun ch =>
    !(ch = ',') && !(ch = ' ') && !(ch = ':') && !(isRustWhitespace ch))

/-- A package of the cycle: version `1.0`, depending only on `d`. -/
def cyclePkg (n d : String) : RepositoryPackage :=
  ⟨"", n, "1.0", "", "", some d, none, none⟩

/-- The index containing exactly the cycle `a → b → c → a`. -/
def cycleIndex (a b c : String) : PackageIndex :=
  ((PackageIndex.default.add_package (cyclePkg a b)).add_package
    (cyclePkg b c)).add_package (cyclePkg c a)

/-! ## Theorems -/

/-- The first piece produced by `splitListChar` is the `takeWhile` of
the non-separator predicate. -/
theorem splitListChar_head (sep : Char) (l : List Char) :
    ∃ rest, splitListChar sep l = l.takeWhile (fun c => !(c = sep)) :: rest := by
  induction l with
  | nil => exact ⟨[], rfl⟩
  | cons c cs ih =>
    obtain ⟨rest, hrest⟩ := ih
    by_cases hc : c = sep
    · refine ⟨splitListChar sep cs, ?_⟩
      simp [splitListChar, hc, List.takeWhile]
    · refine ⟨rest, ?_⟩
      simp only [splitListChar, if_neg hc, hrest, List.takeWhile]
      simp [hc]

/-- C3 (counterexample): on the dependency field
`"foo:i386, a|b, p\tq"` the source strips the whole `:i386` qualifier,
keeps `a|b` intact, and keeps the tab inside `p\tq`, while the claim's
algorithm (`:any`-only stripping, a cut at `|`, a cut at the first
whitespace) yields a different set. -/
theorem C3_counterexample_colon_qualifier :
    RepositoryPackage.get_dependencies
        ⟨"", "tt", "1", "", "", some "foo:i386, a|b, p\tq", none, none⟩
        = ["foo", "a|b", "p\tq"]
    ∧ claimC3Dependencies
        ⟨"", "tt", "1", "", "", some "foo:i386, a|b, p\tq", none, none⟩
        = ["foo:i386", "a", "p"]
    ∧ RepositoryPackage.get_dependencies
        ⟨"", "tt", "1", "", "", some "foo:i386, a|b, p\tq", none, none⟩
      ≠ claimC3Dependencies
        ⟨"", "tt", "1", "", "", some "foo:i386, a|b, p\tq", none, none⟩ :=
  ⟨by decide, by decide, by decide⟩

/-- C3 (amended): for every `RepositoryPackage`, `get_dependencies`
returns exactly the unique names obtained by splitting the
concatenation of `pre_depends` and `depends` on `,`, whitespace-trimming
each entry, taking the substring before the first space character, then
the substring before the first `:` (any colon qualifier is stripped,
not only `:any`), trimming again and discarding empty entries; `|`
receives no special treatment. -/
theorem C3_get_dependencies_amended (p : RepositoryPackage) :
    p.get_dependencies = amendedC3Dependencies p := by
  unfold RepositoryPackage.get_dependencies amendedC3Dependencies
  refine List.foldl_ext _ _ _ ?_
  intro acc field _
  refine List.foldl_ext _ _ _ ?_
  intro acc2 entry _
  obtain ⟨r1, h1⟩ := splitListChar_head ' ' (trimList entry.data)
  have hsp : splitOnCharS ' ' (trimS entry)
      = (⟨(trimList entry.data).takeWhile (fun c => !(c = ' '))⟩ : String) ::
        r1.map (fun l => (⟨l⟩ : String)) := by
    simp only [splitOnCharS, trimS, h1, List.map]
  rw [hsp]
  set tw := (trimList entry.data).takeWhile (fun c => !(c = ' ')) with htw
  obtain ⟨r2, h2⟩ := splitListChar_head ':' tw
  have hsp2 : splitOnCharS ':' (⟨tw⟩ : String)
      = (⟨tw.takeWhile (fun c => !(c = ':'))⟩ : String) ::
        r2.map (fun l => (⟨l⟩ : String)) := by
    simp only [splitOnCharS, h2, List.map]
  simp only [hsp2, amendedC3Token, trimS]

/-- A character allowed in a package name that is also ASCII
alphanumeric is a lower-case letter or a digit. -/
theorem packageName_first_char (ch : Char) (h1 : packageNameCharOk ch = true)
    (h2 : isAsciiAlphanumeric ch = true) :
    ('a' ≤ ch ∧ ch ≤ 'z') ∨ ('0' ≤ ch ∧ ch ≤ '9') := by
  simp only [packageNameCharOk, Bool.or_eq_true, Bool.and_eq_true,
    decide_eq_true_eq] at h1
  rcases h1 with (((h | h) | h) | h) | h
  · exact Or.inl h
  · exact Or.inr h
  · subst h; exact absurd h2 (by decide)
  · subst h; exact absurd h2 (by decide)
  · subst h; exact absurd h2 (by decide)

/-- The regular-expression view of the validity check equals the
source's check. -/
theorem packageName_valid_equiv (s : String) :
    matchesPackageNameRegex s =
      (s.data.all packageNameCharOk && decide (s.data.length ≥ 2)
        && startsWithAsciiAlphanumeric s) := by
  rw [Bool.eq_iff_iff]
  unfold matchesPackageNameRegex startsWithAsciiAlphanumeric
  cases hd : s.data with
  | nil => simp
  | cons ch rest =>
    simp only [Bool.and_eq_true, Bool.or_eq_true, List.all_eq_true,
      decide_eq_true_eq, List.length_cons, List.mem_cons]
    constructor
    · rintro ⟨⟨hfirst, hrest⟩, hl⟩
      refine ⟨⟨?_, hl⟩, ?_⟩
      · rintro d (rfl | hd2)
        · simp only [packageNameCharOk, Bool.or_eq_true, Bool.and_eq_true,
            decide_eq_true_eq]
          tauto
        · have := hrest d hd2
          simp only [packageNameCharOk, Bool.or_eq_true, Bool.and_eq_true,
            decide_eq_true_eq]
          tauto
      · rcases hfirst with ⟨h1, h2⟩ | ⟨h1, h2⟩ <;>
          simp [isAsciiAlphanumeric, h1, h2]
    · rintro ⟨⟨hall, hl⟩, halnum⟩
      have hch : packageNameCharOk ch = true := hall ch (Or.inl rfl)
      have hfirst := packageName_first_char ch hch halnum
      refine ⟨⟨hfirst, ?_⟩, hl⟩
      intro d hd2
      have := hall d (Or.inr hd2)
      simp only [packageNameCharOk, Bool.or_eq_true, Bool.and_eq_true,
        decide_eq_true_eq] at this
      tauto

/-- C9: `PackageName` parsing succeeds exactly when the input matches
`^[a-z0-9][a-z0-9+.-]*$` and has length at least 2; on success the
parsed value displays back as the input, and on failure the error
carries the input verbatim. -/
theorem C9_package_name_parse (s : String) :
    (matchesPackageNameRegex s = true →
      PackageName.from_str s = Except.ok ⟨s⟩ ∧ PackageName.display ⟨s⟩ = s)
    ∧ (matchesPackageNameRegex s = false →
      PackageName.from_str s = Except.error ⟨s⟩) := by
  have key := packageName_valid_equiv s
  constructor
  · intro h
    have hv := key.symm.trans h
    refine ⟨?_, rfl⟩
    simp only [PackageName.from_str, hv]
    rfl
  · intro h
    have hv := key.symm.trans h
    simp only [PackageName.from_str, hv]
    rfl

/-- C9 (witness): `g++` parses and round-trips; `aB` is rejected with
the input preserved. -/
theorem C9_package_name_parse_witness :
    (matchesPackageNameRegex "g++" = true
      ∧ PackageName.from_str "g++" = Except.ok ⟨"g++"⟩
      ∧ PackageName.display ⟨"g++"⟩ = "g++")
    ∧ (matchesPackageNameRegex "aB" = false
      ∧ PackageName.from_str "aB" = Except.error ⟨"aB"⟩) :=
  ⟨⟨by decide, ((C9_package_name_parse "g++").1 (by decide)).1,
    ((C9_package_name_parse "g++").1 (by decide)).2⟩,
   ⟨by decide, (C9_package_name_parse "aB").2 (by decide)⟩⟩

/-- C1: the packages layer's `restored_layer_action` returns
`DeleteLayer` for every pair of metadata values, including equal ones
(`KeepLayer` is commented out in the source), so a restored layer is
never kept — contradicting the keep-iff-equal claim and the repo's own
rebuild integration test. -/
theorem C1_restored_layer_always_deleted
    (old_metadata new_metadata : InstallationMetadata) :
    restored_layer_action old_metadata new_metadata
      = RestoredLayerAction.delete_layer := by
  unfold restored_layer_action
  exact ite_self _

/-- Restricting an inline table to the recognized keys does not change
any recognized-key lookup. -/
theorem tableGet_filterRecognized (table : List (String × TomlValue)) (k : String)
    (hk : k ∈ recognizedInstallKeys) :
    tableGet (filterRecognized table) k = tableGet table k := by
  induction table with
  | nil => rfl
  | cons kv t ih =>
    unfold filterRecognized at ih ⊢
    by_cases hkv : kv.1 = k
    · have hr : kv.1 ∈ recognizedInstallKeys := hkv ▸ hk
      rw [List.filter_cons_of_pos (by simpa using hr)]
      unfold tableGet
      rw [List.find?_cons_of_pos _ (by simpa using hkv),
          List.find?_cons_of_pos _ (by simpa using hkv)]
    · by_cases hr : kv.1 ∈ recognizedInstallKeys
      · rw [List.filter_cons_of_pos (by simpa using hr)]
        unfold tableGet
        rw [List.find?_cons_of_neg _ (by simpa using hkv),
            List.find?_cons_of_neg _ (by simpa using hkv)]
        exact ih
      · rw [List.filter_cons_of_neg (by simpa using hr)]
        unfold tableGet at ih ⊢
        rw [List.find?_cons_of_neg _ (by simpa using hkv)]
        exact ih

/-- C4 (counterexample): the `env` key of an install entry changes the
parsed `RequestedPackage`, so the recognized keys are not exactly
`{name, skip_dependencies, force}`. -/
theorem C4_counterexample_env_key_effect :
    RequestedPackage.try_from_inline_table
        [("name", .str "ab"), ("env", .inlineTable [("X", .str "1")])]
      ≠ RequestedPackage.try_from_inline_table [("name", .str "ab")] := by decide

/-- C4 (amended): the keys with any effect on the parsed
`RequestedPackage` are exactly `{name, skip_dependencies, force, env,
commands}`: every other key can be dropped without changing the result,
and each of the five keys has an observable effect. -/
theorem C4_amended_recognized_keys :
    (∀ table : List (String × TomlValue),
      RequestedPackage.try_from_inline_table table
        = RequestedPackage.try_from_inline_table (filterRecognized table))
    ∧ RequestedPackage.try_from_inline_table [("name", .str "ab")]
        ≠ RequestedPackage.try_from_inline_table []
    ∧ RequestedPackage.try_from_inline_table
          [("name", .str "ab"), ("skip_dependencies", .boolean true)]
        ≠ RequestedPackage.try_from_inline_table [("name", .str "ab")]
    ∧ RequestedPackage.try_from_inline_table
          [("name", .str "ab"), ("force", .boolean true)]
        ≠ RequestedPackage.try_from_inline_table [("name", .str "ab")]
    ∧ RequestedPackage.try_from_inline_table
          [("name", .str "ab"), ("env", .inlineTable [("X", .str "1")])]
        ≠ RequestedPackage.try_from_inline_table [("name", .str "ab")]
    ∧ RequestedPackage.try_from_inline_table
          [("name", .str "ab"), ("commands", .array [.str "ls"])]
        ≠ RequestedPackage.try_from_inline_table [("name", .str "ab")] := by
  refine ⟨?_, by decide, by decide, by decide, by decide, by decide⟩
  intro table
  unfold RequestedPackage.try_from_inline_table
  rw [tableGet_filterRecognized table "name" (by decide),
      tableGet_filterRecognized table "skip_dependencies" (by decide),
      tableGet_filterRecognized table "force" (by decide),
      tableGet_filterRecognized table "env" (by decide),
      tableGet_filterRecognized table "commands" (by decide)]

/-- The `control.tar` entry loop: appends every `postinst` entry to
the written files and remembers the last one. -/
theorem control_fold_spec (entries : List TarEntry) (files : List (List String × List Nat))
    (post : Option (List String)) :
    entries.foldl
      (fun (acc : List (List String × List Nat) × Option (List String)) e =>
        if e.path.getLast? = some "postinst" then (acc.1 ++ [(e.path, e.content)], some e.path)
        else acc)
      (files, post)
    = (files ++ ((entries.filter (fun e => e.path.getLast? = some "postinst")).map
          (fun e => (e.path, e.content))),
       ((entries.filter (fun e => e.path.getLast? = some "postinst")).map
          (fun e => e.path)).getLast? <|> post) := by
  induction entries generalizing files post with
  | nil => simp
  | cons e rest ih =>
    by_cases he : e.path.getLast? = some "postinst"
    · rw [List.foldl_cons]
      simp only [if_pos he]
      rw [ih]
      rw [List.filter_cons_of_pos (by simpa using he)]
      simp only [List.map_cons, Prod.mk.injEq]
      refine ⟨by simp [List.append_assoc], ?_⟩
      cases hL : (rest.filter (fun e => decide (e.path.getLast? = some "postinst"))).map
          (fun e => e.path) with
      | nil => simp
      | cons x xs =>
        rcases hy : (x :: xs).getLast? with _ | y
        · simp at hy
        · simp [List.getLast?_cons_cons, hy]
    · rw [List.foldl_cons]
      simp only [if_neg he]
      rw [ih, List.filter_cons_of_neg (by simpa using he)]

/-- `getLast?` over an append, threaded through `orElse`. -/
theorem getLast?_append_orElse {α : Type} (a b : List α) (c : Option α) :
    ((a ++ b).getLast? <|> c) = (b.getLast? <|> (a.getLast? <|> c)) := by
  cases b with
  | nil => simp
  | cons x xs =>
    rw [List.getLast?_append_of_ne_nil a (by simp)]
    rcases hy : (x :: xs).getLast? with _ | y
    · simp at hy
    · simp

/-- The member loop of `extract` equals the specification-side
recomputation: files of the good prefix, last postinst, first error. -/
theorem extractLoop_spec (ms : List ArMember) (st : ExtractState)
    (post : Option (List String)) :
    extractLoop ms st post =
      (⟨st.files ++ (ms.takeWhile (fun m => (specBadMember m).isNone)).flatMap
          specMemberFiles, st.executed⟩,
       ((ms.takeWhile (fun m => (specBadMember m).isNone)).flatMap
          specMemberPostinsts).getLast? <|> post,
       match ms.dropWhile (fun m => (specBadMember m).isNone) with
       | [] => none
       | bad :: _ => specBadMember bad) := by
  induction ms generalizing st post with
  | nil => simp [extractLoop]
  | cons m ms ih =>
    rcases hsplit : lastDotSplit m.identifier.data with _ | ⟨stem, ext⟩
    · have hbad : specBadMember m = none := by simp [specBadMember, hsplit]
      simp only [extractLoop, hsplit]
      rw [ih]
      simp [List.takeWhile_cons, List.dropWhile_cons, hbad, specMemberFiles,
        specMemberPostinsts, hsplit]
    · by_cases hdata : stem = ("data.tar").data
      · by_cases hsup : supportedCompression ext = true
        · have hbad : specBadMember m = none := by
            simp [specBadMember, hsplit, hdata, hsup]
          have hfiles : specMemberFiles m
              = m.entries.map (fun e => (e.path, e.content)) := by
            simp [specMemberFiles, hsplit, hdata, hsup]
          have hposts : specMemberPostinsts m = [] := by
            have : stem ≠ ("control.tar").data := by rw [hdata]; decide
            simp [specMemberPostinsts, hsplit, this]
          simp only [extractLoop, hsplit, if_pos hdata, if_pos hsup]
          rw [ih]
          simp [List.takeWhile_cons, List.dropWhile_cons, hbad, hfiles, hposts,
            List.append_assoc]
        · have hbad : specBadMember m
              = some (.unsupportedCompression ⟨ext⟩) := by
            simp [specBadMember, hsplit, hdata, hsup]
          simp only [extractLoop, hsplit, if_pos hdata, if_neg hsup]
          simp [List.takeWhile_cons, List.dropWhile_cons, hbad]
      · by_cases hctl : stem = ("control.tar").data
        · by_cases hsup : supportedCompression ext = true
          · have hbad : specBadMember m = none := by
              simp [specBadMember, hsplit, hctl, hsup]
            have hfiles : specMemberFiles m
                = (m.entries.filter (fun e => e.path.getLast? = some "postinst")).map
                    (fun e => (e.path, e.content)) := by
              simp [specMemberFiles, hsplit, hdata, hctl, hsup]
            have hposts : specMemberPostinsts m
                = (m.entries.filter (fun e => e.path.getLast? = some "postinst")).map
                    (fun e => e.path) := by
              simp [specMemberPostinsts, hsplit, hctl, hsup]
            simp only [extractLoop, hsplit, if_neg hdata, if_pos hctl, if_pos hsup]
            rw [control_fold_spec]
            rw [ih]
            simp only [List.takeWhile_cons, List.dropWhile_cons, hbad, hfiles, hposts,
              Option.isNone_none, if_pos, List.flatMap_cons, Prod.mk.injEq]
            refine ⟨by simp [List.append_assoc], ?_, trivial⟩
            rw [getLast?_append_orElse]
          · have hbad : specBadMember m
                = some (.unsupportedCompression ⟨ext⟩) := by
              simp [specBadMember, hsplit, hctl, hsup]
            simp only [extractLoop, hsplit, if_neg hdata, if_pos hctl, if_neg hsup]
            simp [List.takeWhile_cons, List.dropWhile_cons, hbad]
        · have hbad : specBadMember m = none := by
            simp [specBadMember, hsplit, hdata, hctl]
          have hfiles : specMemberFiles m = [] := by
            simp [specMemberFiles, hsplit, hdata, hctl]
          have hposts : specMemberPostinsts m = [] := by
            simp [specMemberPostinsts, hsplit, hctl]
          simp only [extractLoop, hsplit, if_neg hdata, if_neg hctl]
          rw [ih]
          simp [List.takeWhile_cons, List.dropWhile_cons, hbad, hfiles, hposts]

/-- The head of `dropWhile p l` fails `p`. -/
theorem dropWhile_head_false {α : Type} (p : α → Bool) (l : List α) (x : α) (xs : List α)
    (h : l.dropWhile p = x :: xs) : p x = false := by
  induction l with
  | nil => simp at h
  | cons a as ih =>
    rw [List.dropWhile_cons] at h
    by_cases ha : p a = true
    · rw [if_pos ha] at h; exact ih h
    · rw [if_neg ha] at h
      cases h
      simpa using ha

/-- C2 (amended): `extract` processes `ar` members in order up to the
first `data.tar.*`/`control.tar.*` member with an unsupported
extension; supported `data.tar.*` members unpack all entries into the
layer, supported `control.tar.*` members write exactly their
`postinst` entries, every other member (e.g. `debian-binary`) writes
nothing; when no error occurred the last `postinst` found is executed
after the loop (`preinst` is never written or executed). -/
theorem C2_extract_amended (archive : List ArMember) (st : ExtractState) :
    extract archive st = specExtract archive st := by
  unfold extract specExtract
  rw [extractLoop_spec]
  cases hdrop : archive.dropWhile (fun m => (specBadMember m).isNone) with
  | nil =>
    cases hlast : ((archive.takeWhile (fun m => (specBadMember m).isNone)).flatMap
        specMemberPostinsts).getLast? with
    | none => simp [hlast]
    | some p => simp [hlast]
  | cons bad rest =>
    have hfalse := dropWhile_head_false _ _ _ _ hdrop
    cases hbad : specBadMember bad with
    | none => rw [hbad] at hfalse; simp at hfalse
    | some e => simp [hbad]

/-- C2 (counterexample): an archive whose only member is
`control.tar.gz` containing a `postinst` script does change the layer
filesystem and the process state: the script is written into the layer
and executed. -/
theorem C2_counterexample_postinst_executed :
    extract [⟨"control.tar.gz", [⟨["postinst"], [1]⟩]⟩] ⟨[], []⟩
      = (⟨[(["postinst"], [1])], [["postinst"]]⟩, none)
    ∧ (⟨[(["postinst"], [1])], [["postinst"]]⟩ : ExtractState) ≠ (⟨[], []⟩ : ExtractState) :=
  ⟨by decide, by decide⟩

/-- `filterMap` of a guarded `some` is `filter` then `map`. -/
theorem filterMap_if_eq_filter_map {α β : Type} (p : α → Bool) (f : α → β) (l : List α) :
    l.filterMap (fun e => if p e then some (f e) else none) = (l.filter p).map f := by
  induction l with
  | nil => rfl
  | cons x xs ih =>
    by_cases hx : p x = true
    · rw [List.filterMap_cons, List.filter_cons_of_pos hx]
      simp only [if_pos hx, List.map_cons, ih]
    · rw [List.filterMap_cons, List.filter_cons_of_neg (by simpa using hx)]
      simp only [if_neg hx, ih]

/-- `find_all_dirs_containing` with the shared-library condition equals
the amended per-root directory list. -/
theorem find_all_eq_amendedC8 (fs : FileSystem) (root : List String) :
    find_all_dirs_containing fs root shared_library_file = amendedC8DirsFor fs root := by
  unfold find_all_dirs_containing amendedC8DirsFor
  by_cases hex : fs.any (fun e => e.path = root) = true
  · rw [if_pos hex, if_pos hex]
    simp only [filterMap_if_eq_filter_map]
  · rw [if_neg hex, if_neg hex]
    rfl

/-- Folding `IndexSet::insert` over a `flatMap` equals the nested
fold. -/
theorem flatMap_foldl_insert {α β : Type} [DecidableEq α] (rs : List β) (f : β → List α)
    (acc : List α) :
    (rs.flatMap f).foldl indexSetInsert acc
      = rs.foldl (fun acc r => (f r).foldl indexSetInsert acc) acc := by
  induction rs generalizing acc with
  | nil => rfl
  | cons r rest ih =>
    rw [List.flatMap_cons, List.foldl_append, List.foldl_cons, ih]

/-- C8 (amended): the `LD_LIBRARY_PATH` fragment contains, for each of
the roots `usr/lib/{multiarch}`, `usr/lib`, `lib/{multiarch}`, `lib` in
that order: the immediate parent directory of every walked entry under
an existing root whose final name component matches the shared-library
rule, ordered longest-path-first (stable), followed by the root
directory itself (roots are appended even when absent); each directory
appears exactly once with the first occurrence kept. -/
theorem C8_library_paths_amended (fs : FileSystem) (multiarch_name : String) :
    library_paths fs multiarch_name = amendedC8LibraryPaths fs multiarch_name := by
  unfold library_paths amendedC8LibraryPaths dedupKeepFirst
  rw [flatMap_foldl_insert]
  refine List.foldl_ext _ _ _ ?_
  intro acc root _
  rw [find_all_eq_amendedC8, List.foldl_append]
  rfl

/-- C8 (counterexample): with a single shared library at
`usr/lib/x/y/libz.so`, the directory `usr/lib/x` transitively contains
a shared-library file and lies under the root `usr/lib`, yet it does
not appear in the produced `LD_LIBRARY_PATH` list — the source only
records the immediate parent `usr/lib/x/y`. -/
theorem C8_counterexample_transitive_dir_missing :
    transitivelyContainsSharedLib
        [⟨["usr"], true⟩, ⟨["usr", "lib"], true⟩, ⟨["usr", "lib", "x"], true⟩,
         ⟨["usr", "lib", "x", "y"], true⟩, ⟨["usr", "lib", "x", "y", "libz.so"], false⟩]
        ["usr", "lib", "x"] = true
    ∧ (["usr", "lib"] : List String).isPrefixOf ["usr", "lib", "x"] = true
    ∧ ["usr", "lib", "x"] ∉ library_paths
        [⟨["usr"], true⟩, ⟨["usr", "lib"], true⟩, ⟨["usr", "lib", "x"], true⟩,
         ⟨["usr", "lib", "x", "y"], true⟩, ⟨["usr", "lib", "x", "y", "libz.so"], false⟩]
        "x86_64-linux-gnu" :=
  ⟨by decide, by decide, by decide⟩

/-- C7: when the SHA-256 of the downloaded bytes differs from the
package's declared `sha256`, `download` raises `ChecksumFailed`
carrying the download URL, the expected hash and the actual hash, and
`download_and_extract` propagates that error without running the
extraction step (the layer state is untouched). -/
theorem C7_checksum_gate (repository_package : RepositoryPackage) (body : List Nat)
    (archive : List ArMember) (st : ExtractState)
    (h1 : (fileNameOf repository_package.filename).isSome = true)
    (h2 : repository_package.sha256sum ≠ sha256hex body) :
    download repository_package body
      = .error (.checksumFailed (build_download_url repository_package)
          repository_package.sha256sum (sha256hex body))
    ∧ download_and_extract repository_package body archive st
      = (st, some (.checksumFailed (build_download_url repository_package)
          repository_package.sha256sum (sha256hex body))) := by
  obtain ⟨seg, hseg⟩ := Option.isSome_iff_exists.mp h1
  have hdl : download repository_package body
      = .error (.checksumFailed (build_download_url repository_package)
          repository_package.sha256sum (sha256hex body)) := by
    unfold download
    simp only [hseg]
    rw [if_pos h2]
  refine ⟨hdl, ?_⟩
  unfold download_and_extract
  rw [hdl]

/-- C7 (witness): concrete package with declared checksum `00` and an
empty response body. -/
theorem C7_checksum_gate_witness :
    (fileNameOf "pool/a.deb").isSome = true
    ∧ ("00" : String) ≠ sha256hex []
    ∧ download_and_extract ⟨"http://r", "nm", "1", "pool/a.deb", "00", none, none, none⟩
        [] [] ⟨[], []⟩
      = (⟨[], []⟩, some (.checksumFailed
          (build_download_url ⟨"http://r", "nm", "1", "pool/a.deb", "00", none, none, none⟩)
          "00" (sha256hex []))) :=
  ⟨by decide, by decide,
   (C7_checksum_gate ⟨"http://r", "nm", "1", "pool/a.deb", "00", none, none, none⟩
      [] [] ⟨[], []⟩ (by decide) (by decide)).2⟩

/-- Lexicographic order on `List Nat`: irreflexivity. -/
theorem listLexLT_irrefl (l : List Nat) : listLexLT l l = false := by
  induction l with
  | nil => rfl
  | cons a as ih => simp [listLexLT, ih]

/-- Lexicographic order on `List Nat`: transitivity. -/
theorem listLexLT_trans : ∀ {a b c : List Nat},
    listLexLT a b = true → listLexLT b c = true → listLexLT a c = true
  | [], [], _, h1, _ => by simp [listLexLT] at h1
  | [], _ :: _, [], _, h2 => by simp [listLexLT] at h2
  | [], _ :: _, _ :: _, _, _ => rfl
  | _ :: _, [], _, h1, _ => by simp [listLexLT] at h1
  | _ :: _, _ :: _, [], _, h2 => by simp [listLexLT] at h2
  | x :: xs, y :: ys, z :: zs, h1, h2 => by
    simp only [listLexLT, Bool.or_eq_true, Bool.and_eq_true, decide_eq_true_eq] at h1 h2 ⊢
    rcases h1 with h1 | ⟨rfl, h1⟩
    · rcases h2 with h2 | ⟨rfl, h2⟩
      · exact Or.inl (Nat.lt_trans h1 h2)
      · exact Or.inl h1
    · rcases h2 with h2 | ⟨rfl, h2⟩
      · exact Or.inl h2
      · exact Or.inr ⟨rfl, listLexLT_trans h1 h2⟩

/-- Lexicographic order on `List Nat`: connectivity. -/
theorem listLexLT_conn : ∀ {a b : List Nat},
    listLexLT a b = false → listLexLT b a = false → a = b
  | [], [], _, _ => rfl
  | [], _ :: _, h1, _ => by simp [listLexLT] at h1
  | _ :: _, [], _, h2 => by simp [listLexLT] at h2
  | x :: xs, y :: ys, h1, h2 => by
    simp only [listLexLT, Bool.or_eq_false_iff, Bool.and_eq_false_iff,
      decide_eq_false_iff_not] at h1 h2
    obtain ⟨hxy, h1'⟩ := h1
    obtain ⟨hyx, h2'⟩ := h2
    have hxyeq : x = y := Nat.le_antisymm (Nat.le_of_not_lt hyx) (Nat.le_of_not_lt hxy)
    subst hxyeq
    rcases h1' with h1' | h1'
    · exact absurd rfl h1'
    · rcases h2' with h2' | h2'
      · exact absurd rfl h2'
      · have hxs := listLexLT_conn (by simpa using h1') (by simpa using h2')
        rw [hxs]

/-- The strict Debian version order is irreflexive. -/
theorem verLT_irrefl (v : DebVersion) : verLT v v = false := by
  simp [verLT, listLexLT_irrefl]

/-- The strict Debian version order is transitive. -/
theorem verLT_trans {a b c : DebVersion} (h1 : verLT a b = true) (h2 : verLT b c = true) :
    verLT a c = true := by
  simp only [verLT, Bool.or_eq_true, Bool.and_eq_true, decide_eq_true_eq] at h1 h2 ⊢
  rcases h1 with h1 | ⟨he1, h1⟩
  · rcases h2 with h2 | ⟨he2, h2⟩
    · exact Or.inl (Nat.lt_trans h1 h2)
    · exact Or.inl (he2 ▸ h1)
  · rcases h2 with h2 | ⟨he2, h2⟩
    · exact Or.inl (he1 ▸ h2)
    · refine Or.inr ⟨he1.trans he2, ?_⟩
      rcases h1 with h1 | ⟨hu1, h1⟩
      · rcases h2 with h2 | ⟨hu2, h2⟩
        · exact Or.inl (listLexLT_trans h1 h2)
        · exact Or.inl (hu2 ▸ h1)
      · rcases h2 with h2 | ⟨hu2, h2⟩
        · exact Or.inl (hu1 ▸ h2)
        · exact Or.inr ⟨hu1.trans hu2, listLexLT_trans h1 h2⟩

/-- Two versions that are not strictly ordered either way are equal. -/
theorem verLT_conn {a b : DebVersion} (h1 : verLT a b = false) (h2 : verLT b a = false) :
    a = b := by
  simp only [verLT, Bool.or_eq_false_iff, Bool.and_eq_false_iff,
    decide_eq_false_iff_not] at h1 h2
  obtain ⟨he1, h1'⟩ := h1
  obtain ⟨he2, h2'⟩ := h2
  have he : a.epoch = b.epoch :=
    Nat.le_antisymm (Nat.le_of_not_lt he2) (Nat.le_of_not_lt he1)
  rcases h1' with h1' | h1'
  · exact absurd he h1'
  · rcases h2' with h2' | h2'
    · exact absurd he.symm h2'
    · obtain ⟨hu1, h1''⟩ := h1'
      obtain ⟨hu2, h2''⟩ := h2'
      have hu : a.upstream = b.upstream := listLexLT_conn (by simpa using hu1) (by simpa using hu2)
      rcases h1'' with h1'' | h1''
      · exact absurd hu h1''
      · rcases h2'' with h2'' | h2''
        · exact absurd hu.symm h2''
        · have hr : a.revision = b.revision :=
            listLexLT_conn (by simpa using h1'') (by simpa using h2'')
          cases a; cases b
          simp_all

/-- The Debian version order is reflexive. -/
theorem verLE_refl (v : DebVersion) : verLE v v = true := by
  simp [verLE, verLT_irrefl]

/-- The Debian version order is total. -/
theorem verLE_total (a b : DebVersion) : verLE a b = true ∨ verLE b a = true := by
  by_cases h : verLT b a = true
  · right
    have : verLT a b = false := by
      cases hab : verLT a b
      · rfl
      · have := verLT_trans hab h
        rw [verLT_irrefl] at this
        exact absurd this (by simp)
    simp [verLE, this]
  · left
    simp only [verLE]
    simp only [Bool.not_eq_true] at h
    simp [h]

/-- The Debian version order is transitive. -/
theorem verLE_trans {a b c : DebVersion} (h1 : verLE a b = true) (h2 : verLE b c = true) :
    verLE a c = true := by
  simp only [verLE, Bool.not_eq_true'] at h1 h2 ⊢
  cases hca : verLT c a
  · rfl
  · exfalso
    cases hab : verLT a b
    · have hab2 := verLT_conn hab h1
      subst hab2
      simp [h2] at hca
    · have hcb := verLT_trans hca hab
      simp [h2] at hcb

/-- `parseVersions` preserves the package list. -/
theorem parseVersions_map_fst : ∀ {l : List RepositoryPackage}
    {pairs : List (RepositoryPackage × DebVersion)},
    parseVersions l = some pairs → pairs.map Prod.fst = l
  | [], pairs, h => by
    simp only [parseVersions, Option.some.injEq] at h
    subst h; rfl
  | p :: ps, pairs, h => by
    simp only [parseVersions] at h
    cases hv : debVersionFromStr p.version with
    | none => rw [hv] at h; simp at h
    | some v =>
      rw [hv] at h
      cases hrest : parseVersions ps with
      | none => rw [hrest] at h; simp at h
      | some rest =>
        rw [hrest] at h
        simp only [Option.map_some', Option.some.injEq] at h
        subst h
        simp [parseVersions_map_fst hrest]

/-- Every produced pair records the parse of its package's version. -/
theorem parseVersions_mem : ∀ {l : List RepositoryPackage}
    {pairs : List (RepositoryPackage × DebVersion)},
    parseVersions l = some pairs →
    ∀ pr ∈ pairs, debVersionFromStr pr.1.version = some pr.2
  | [], pairs, h => by
    simp only [parseVersions, Option.some.injEq] at h
    subst h; simp
  | p :: ps, pairs, h => by
    simp only [parseVersions] at h
    cases hv : debVersionFromStr p.version with
    | none => rw [hv] at h; simp at h
    | some v =>
      rw [hv] at h
      cases hrest : parseVersions ps with
      | none => rw [hrest] at h; simp at h
      | some rest =>
        rw [hrest] at h
        simp only [Option.map_some', Option.some.injEq] at h
        subst h
        intro pr hpr
        rcases List.mem_cons.mp hpr with rfl | hm
        · exact hv
        · exact parseVersions_mem hrest pr hm

/-- Every package with a parsing version appears among the pairs. -/
theorem parseVersions_mem_rev : ∀ {l : List RepositoryPackage}
    {pairs : List (RepositoryPackage × DebVersion)},
    parseVersions l = some pairs →
    ∀ q ∈ l, ∀ w, debVersionFromStr q.version = some w → (q, w) ∈ pairs
  | [], pairs, h => by simp
  | p :: ps, pairs, h => by
    simp only [parseVersions] at h
    cases hv : debVersionFromStr p.version with
    | none => rw [hv] at h; simp at h
    | some v =>
      rw [hv] at h
      cases hrest : parseVersions ps with
      | none => rw [hrest] at h; simp at h
      | some rest =>
        rw [hrest] at h
        simp only [Option.map_some', Option.some.injEq] at h
        subst h
        intro q hq w hw
        rcases List.mem_cons.mp hq with rfl | hm
        · rw [hv] at hw
          cases hw
          exact List.mem_cons_self _ _
        · exact List.mem_cons_of_mem _ (parseVersions_mem_rev hrest q hm w hw)

/-- When every stored version parses, `parseVersions` succeeds. -/
theorem parseVersions_isSome : ∀ {l : List RepositoryPackage},
    (∀ p ∈ l, (debVersionFromStr p.version).isSome = true) →
    (parseVersions l).isSome = true
  | [], _ => rfl
  | p :: ps, h => by
    have hp := h p (List.mem_cons_self _ _)
    obtain ⟨v, hv⟩ := Option.isSome_iff_exists.mp hp
    have hrest := parseVersions_isSome (fun q hq => h q (List.mem_cons_of_mem _ hq))
    obtain ⟨rest, hrest'⟩ := Option.isSome_iff_exists.mp hrest
    simp [parseVersions, hv, hrest']

/-- A single invalid version makes `parseVersions` panic. -/
theorem parseVersions_none : ∀ {l : List RepositoryPackage},
    (∃ p ∈ l, debVersionFromStr p.version = none) → parseVersions l = none
  | [], h => by simp at h
  | p :: ps, h => by
    rcases h with ⟨q, hq, hbad⟩
    rcases List.mem_cons.mp hq with rfl | hq'
    · simp [parseVersions, hbad]
    · simp only [parseVersions]
      cases hv : debVersionFromStr p.version with
      | none => rfl
      | some v => rw [parseVersions_none ⟨q, hq', hbad⟩]; rfl

/-- The head of the descending sort is a maximum. -/
theorem sortDesc_head_max (pairs : List (RepositoryPackage × DebVersion))
    (hne : pairs ≠ []) :
    ∃ x rest, sortDescByVersion pairs = x :: rest ∧ x ∈ pairs
      ∧ ∀ y ∈ pairs, verLE y.2 x.2 = true := by
  haveI : IsTrans (RepositoryPackage × DebVersion)
      (fun x y => verLE y.2 x.2 = true) := ⟨fun _ _ _ h1 h2 => verLE_trans h2 h1⟩
  haveI : IsTotal (RepositoryPackage × DebVersion)
      (fun x y => verLE y.2 x.2 = true) :=
    ⟨fun x y => (verLE_total y.2 x.2).elim Or.inl Or.inr⟩
  have hsorted := List.sorted_insertionSort
    (fun x y : RepositoryPackage × DebVersion => verLE y.2 x.2 = true) pairs
  have hperm := List.perm_insertionSort
    (fun x y : RepositoryPackage × DebVersion => verLE y.2 x.2 = true) pairs
  cases hs : List.insertionSort
      (fun x y : RepositoryPackage × DebVersion => verLE y.2 x.2 = true) pairs with
  | nil =>
    rw [hs] at hperm
    exact absurd (hperm.symm.eq_nil) hne
  | cons x rest =>
    refine ⟨x, rest, hs, ?_, ?_⟩
    · have : x ∈ x :: rest := List.mem_cons_self _ _
      rw [← hs] at this
      exact hperm.mem_iff.mp this
    · intro y hy
      have hy' : y ∈ x :: rest := by
        rw [← hs]
        exact hperm.mem_iff.mpr hy
      rcases hy' with _ | hy''
      · exact verLE_refl _
      · rw [hs] at hsorted
        exact List.rel_of_sorted_cons hsorted y (by assumption)

/-- C10: `get_highest_available_version` returns `.ok none` when the
name is absent; when every stored candidate's version parses it
returns `.ok (some p)` for a stored package `p` whose version is
greatest; and when any stored candidate's version does not parse it
panics (the `expect` message) instead of returning an error value. -/
theorem C10_get_highest_total_or_panic (idx : PackageIndex) (name : String) :
    (assocFind idx.name_to_repository_packages name = none →
      idx.get_highest_available_version name = .ok none)
    ∧ (∀ pkgs, assocFind idx.name_to_repository_packages name = some pkgs →
        (∀ p ∈ pkgs, (debVersionFromStr p.version).isSome = true) →
        pkgs ≠ [] →
        ∃ p v, p ∈ pkgs ∧ debVersionFromStr p.version = some v
          ∧ idx.get_highest_available_version name = .ok (some p)
          ∧ ∀ q ∈ pkgs, ∀ w, debVersionFromStr q.version = some w → verLE w v = true)
    ∧ (∀ pkgs, assocFind idx.name_to_repository_packages name = some pkgs →
        (∃ p ∈ pkgs, debVersionFromStr p.version = none) →
        idx.get_highest_available_version name
          = .error "Packages should always have a valid debian version") := by
  refine ⟨?_, ?_, ?_⟩
  · intro h
    unfold PackageIndex.get_highest_available_version
    rw [h]
  · intro pkgs hfind hall hne
    obtain ⟨pairs, hpairs⟩ := Option.isSome_iff_exists.mp (parseVersions_isSome hall)
    have hmap := parseVersions_map_fst hpairs
    have hpne : pairs ≠ [] := by
      intro hnil
      rw [hnil] at hmap
      exact hne hmap.symm
    obtain ⟨x, rest, hs, hxmem, hmax⟩ := sortDesc_head_max pairs hpne
    refine ⟨x.1, x.2, ?_, parseVersions_mem hpairs x hxmem, ?_, ?_⟩
    · rw [← hmap]
      exact List.mem_map_of_mem Prod.fst hxmem
    · unfold PackageIndex.get_highest_available_version
      simp [hfind, hpairs, hs]
    · intro q hq w hw
      exact hmax (q, w) (parseVersions_mem_rev hpairs q hq w hw)
  · intro pkgs hfind hbad
    unfold PackageIndex.get_highest_available_version
    simp [hfind, parseVersions_none hbad]

/-- C10 (witness): a concrete index with an absent name, a name with
two valid versions, and a name with an invalid version. -/
theorem C10_get_highest_witness :
    (PackageIndex.get_highest_available_version
        ⟨[("aa", [⟨"", "aa", "1.0", "", "", none, none, none⟩,
                  ⟨"", "aa", "2.0", "", "", none, none, none⟩]),
          ("bb", [⟨"", "bb", "not valid!", "", "", none, none, none⟩])], [], 3⟩
        "zz" = .ok none)
    ∧ (∃ p v, p ∈ [(⟨"", "aa", "1.0", "", "", none, none, none⟩ : RepositoryPackage),
          ⟨"", "aa", "2.0", "", "", none, none, none⟩]
        ∧ debVersionFromStr p.version = some v
        ∧ PackageIndex.get_highest_available_version
            ⟨[("aa", [⟨"", "aa", "1.0", "", "", none, none, none⟩,
                      ⟨"", "aa", "2.0", "", "", none, none, none⟩]),
              ("bb", [⟨"", "bb", "not valid!", "", "", none, none, none⟩])], [], 3⟩
            "aa" = .ok (some p)
        ∧ ∀ q ∈ [(⟨"", "aa", "1.0", "", "", none, none, none⟩ : RepositoryPackage),
              ⟨"", "aa", "2.0", "", "", none, none, none⟩],
            ∀ w, debVersionFromStr q.version = some w → verLE w v = true)
    ∧ (PackageIndex.get_highest_available_version
        ⟨[("aa", [⟨"", "aa", "1.0", "", "", none, none, none⟩,
                  ⟨"", "aa", "2.0", "", "", none, none, none⟩]),
          ("bb", [⟨"", "bb", "not valid!", "", "", none, none, none⟩])], [], 3⟩
        "bb" = .error "Packages should always have a valid debian version") :=
  ⟨(C10_get_highest_total_or_panic _ "zz").1 (by decide),
   (C10_get_highest_total_or_panic _ "aa").2.1
     [⟨"", "aa", "1.0", "", "", none, none, none⟩,
      ⟨"", "aa", "2.0", "", "", none, none, none⟩]
     (by decide) (by decide) (by decide),
   (C10_get_highest_total_or_panic _ "bb").2.2
     [⟨"", "bb", "not valid!", "", "", none, none, none⟩] (by decide)
     ⟨⟨"", "bb", "not valid!", "", "", none, none, none⟩, by decide, by decide⟩⟩

/-- C6: for a name resolved through the virtual-package map, exactly
one provider (whose highest version exists) is returned together with
the virtual-resolved notification; zero providers fail with
`PackageNotFound` naming the requested name; two or more providers
fail with `VirtualPackageMustBeSpecified` listing all of them. -/
theorem C6_virtual_provider_resolution (package_index : PackageIndex) (package : String)
    (notifs : List PackageNotification) :
    (∀ providing_package repository_package,
      package_index.get_providers package = [providing_package] →
      package_index.get_highest_available_version providing_package
        = .ok (some repository_package) →
      get_provider_for_virtual_package package_index package notifs
        = .ok (repository_package,
            indexSetInsert notifs
              (.virtualPackageHasOnlyOneImplementor package repository_package)))
    ∧ (package_index.get_providers package = [] →
      get_provider_for_virtual_package package_index package notifs
        = .error (.packageNotFound package))
    ∧ (∀ providers, package_index.get_providers package = providers →
        2 ≤ providers.length →
        get_provider_for_virtual_package package_index package notifs
          = .error (.virtualPackageMustBeSpecified package providers)) := by
  refine ⟨?_, ?_, ?_⟩
  · intro providing_package repository_package h1 h2
    unfold get_provider_for_virtual_package
    simp [h1, h2]
  · intro h
    unfold get_provider_for_virtual_package
    simp [h]
  · intro providers h hlen
    unfold get_provider_for_virtual_package
    rw [h]
    rcases providers with _ | ⟨a, _ | ⟨b, rest⟩⟩
    · simp at hlen
    · simp at hlen
    · rfl

/-- C6 (witness): concrete indexes with one, zero and two providers. -/
theorem C6_virtual_provider_resolution_witness :
    (get_provider_for_virtual_package
        ⟨[("pp", [⟨"", "pp", "1.0", "", "", none, none, none⟩])],
         [("vname", [⟨"", "pp", "1.0", "", "", none, none, none⟩])], 1⟩
        "vname" []
      = .ok (⟨"", "pp", "1.0", "", "", none, none, none⟩,
          indexSetInsert []
            (.virtualPackageHasOnlyOneImplementor "vname"
              ⟨"", "pp", "1.0", "", "", none, none, none⟩)))
    ∧ (get_provider_for_virtual_package PackageIndex.default "vnone" []
        = .error (.packageNotFound "vnone"))
    ∧ (get_provider_for_virtual_package
        ⟨[("p1", [⟨"", "p1", "1.0", "", "", none, none, none⟩]),
          ("p2", [⟨"", "p2", "1.0", "", "", none, none, none⟩])],
         [("vtwo", [⟨"", "p1", "1.0", "", "", none, none, none⟩,
                    ⟨"", "p2", "1.0", "", "", none, none, none⟩])], 2⟩
        "vtwo" []
      = .error (.virtualPackageMustBeSpecified "vtwo" ["p1", "p2"])) :=
  ⟨(C6_virtual_provider_resolution _ "vname" []).1 "pp"
      ⟨"", "pp", "1.0", "", "", none, none, none⟩ (by decide) (by decide),
   (C6_virtual_provider_resolution PackageIndex.default "vnone" []).2.1 (by decide),
   (C6_virtual_provider_resolution _ "vtwo" []).2.2 ["p1", "p2"] (by decide) (by decide)⟩

/-- Splitting on an absent separator returns the whole string. -/
theorem splitListChar_no_sep (sep : Char) : ∀ (l : List Char),
    (∀ ch ∈ l, ¬(ch = sep)) → splitListChar sep l = [l]
  | [], _ => rfl
  | ch :: cs, h => by
    have hch : ¬(ch = sep) := h ch (List.mem_cons_self _ _)
    have hrest := splitListChar_no_sep sep cs (fun d hd => h d (List.mem_cons_of_mem _ hd))
    simp only [splitListChar, if_neg hch, hrest]

/-- `dropWhile` of an everywhere-false predicate is the identity. -/
theorem dropWhile_all_false {α : Type} (p : α → Bool) : ∀ (l : List α),
    (∀ x ∈ l, ¬(p x = true)) → l.dropWhile p = l
  | [], _ => rfl
  | x :: xs, h => by
    rw [List.dropWhile_cons, if_neg (by simpa using h x (List.mem_cons_self _ _))]

/-- Trimming a string without whitespace is the identity. -/
theorem trimList_no_ws (l : List Char) (h : ∀ ch ∈ l, ¬(isRustWhitespace ch = true)) :
    trimList l = l := by
  unfold trimList trimLeftList trimRightList
  rw [dropWhile_all_false _ l h,
    dropWhile_all_false _ l.reverse (fun ch hch => h ch (List.mem_reverse.mp hch)),
    List.reverse_reverse]

/-- The character guarantees packed into `goodName`. -/
theorem goodName_facts (s : String) (h : goodName s = true) :
    s ≠ "" ∧ ∀ ch ∈ s.data,
      ¬(ch = ',') ∧ ¬(ch = ' ') ∧ ¬(ch = ':') ∧ ¬(isRustWhitespace ch = true) := by
  unfold goodName at h
  rw [Bool.and_eq_true] at h
  obtain ⟨hne, hall⟩ := h
  constructor
  · intro hs
    subst hs
    simp at hne
  · intro ch hch
    have hthis := List.all_eq_true.mp hall ch hch
    rw [Bool.and_eq_true, Bool.and_eq_true, Bool.and_eq_true] at hthis
    obtain ⟨⟨⟨h1, h2⟩, h3⟩, h4⟩ := hthis
    refine ⟨by simpa using h1, by simpa using h2, by simpa using h3, ?_⟩
    simp only [Bool.not_eq_true'] at h4
    simp [h4]

/-- A separator-free string splits into itself. -/
theorem goodName_split (sep : Char) (s : String)
    (h : ∀ ch ∈ s.data, ¬(ch = sep)) : splitOnCharS sep s = [s] := by
  unfold splitOnCharS
  rw [splitListChar_no_sep sep s.data h]
  rfl

/-- A whitespace-free string trims to itself. -/
theorem goodName_trim (s : String) (h : ∀ ch ∈ s.data, ¬(isRustWhitespace ch = true)) :
    trimS s = s := by
  unfold trimS
  rw [trimList_no_ws s.data h]

/-- A cycle package depends exactly on its single dependency name. -/
theorem cyclePkg_dependencies (n d : String) (h : goodName d = true) :
    (cyclePkg n d).get_dependencies = [d] := by
  obtain ⟨hne, hprop⟩ := goodName_facts d h
  have hsplit1 : splitOnCharS ',' d = [d] :=
    goodName_split ',' d (fun ch hch => (hprop ch hch).1)
  have htrim : trimS d = d :=
    goodName_trim d (fun ch hch => (hprop ch hch).2.2.2)
  have hsplit2 : splitOnCharS ' ' d = [d] :=
    goodName_split ' ' d (fun ch hch => (hprop ch hch).2.1)
  have hsplit3 : splitOnCharS ':' d = [d] :=
    goodName_split ':' d (fun ch hch => (hprop ch hch).2.2.1)
  unfold RepositoryPackage.get_dependencies cyclePkg
  simp only [List.filterMap, id, List.foldl_cons, List.foldl_nil, hsplit1, htrim,
    hsplit2, hsplit3]
  rw [if_pos hne]
  simp [insertUnique]

/-- The maps of the three-package cycle index. -/
theorem cycleIndex_name_map (a b c : String) (hab : a ≠ b) (hbc : b ≠ c) (hac : a ≠ c) :
    (cycleIndex a b c).name_to_repository_packages
      = [(a, [cyclePkg a b]), (b, [cyclePkg b c]), (c, [cyclePkg c a])]
    ∧ (cycleIndex a b c).virtual_package_to_implementing_packages = [] := by
  unfold cycleIndex PackageIndex.add_package PackageIndex.default
  simp [RepositoryPackage.provides_dependencies, cyclePkg, assocAppend,
    hab, hbc, hac, Ne.symm hab, Ne.symm hbc, Ne.symm hac]

/-- `get_highest_available_version` on a single stored candidate with
a valid version returns that candidate. -/
theorem get_highest_of_find_singleton (idx : PackageIndex) (n : String)
    (p : RepositoryPackage) (v : DebVersion)
    (hfind : assocFind idx.name_to_repository_packages n = some [p])
    (hv : debVersionFromStr p.version = some v) :
    idx.get_highest_available_version n = .ok (some p) := by
  unfold PackageIndex.get_highest_available_version
  simp [hfind, parseVersions, hv, sortDescByVersion, List.insertionSort,
    List.orderedInsert]

/-- C5: for any three distinct well-formed names with the cyclic index
`a → b → c → a`, empty system-package set and `a` requested without
`skip_dependencies`, `visit` terminates for every fuel of at least 3
and marks exactly `{a, b, c}` (each `requested_by a`), emitting exactly
one `Added` notification per name with the dependency paths `[]`, `[a]`
and `[a, b]`; the already-marked guard prevents re-entering `a`, so the
final visit stack is empty. -/
theorem C5_cycle (a b c : String) (hab : a ≠ b) (hbc : b ≠ c) (hac : a ≠ c)
    (hga : goodName a = true) (hgb : goodName b = true) (hgc : goodName c = true) :
    ∀ fuel, visit (fuel + 3) a false [] (cycleIndex a b c) ⟨[], [], []⟩
      = some (.ok ⟨[⟨cyclePkg a b, a⟩, ⟨cyclePkg b c, a⟩, ⟨cyclePkg c a, a⟩], [],
          [.added (cyclePkg a b) [], .added (cyclePkg b c) [a],
           .added (cyclePkg c a) [a, b]]⟩) := by
  obtain ⟨hmap, hvmap⟩ := cycleIndex_name_map a b c hab hbc hac
  have hfa : assocFind (cycleIndex a b c).name_to_repository_packages a
      = some [cyclePkg a b] := by
    rw [hmap]
    simp [assocFind, List.find?]
  have hfb : assocFind (cycleIndex a b c).name_to_repository_packages b
      = some [cyclePkg b c] := by
    rw [hmap]
    simp [assocFind, List.find?, hab]
  have hfc : assocFind (cycleIndex a b c).name_to_repository_packages c
      = some [cyclePkg c a] := by
    rw [hmap]
    simp [assocFind, List.find?, hac, hbc]
  obtain ⟨v10, hv10⟩ : ∃ v, debVersionFromStr "1.0" = some v := ⟨_, rfl⟩
  have hha : (cycleIndex a b c).get_highest_available_version a
      = .ok (some ⟨"", a, "1.0", "", "", some b, none, none⟩) :=
    get_highest_of_find_singleton _ a (cyclePkg a b) v10 hfa hv10
  have hhb : (cycleIndex a b c).get_highest_available_version b
      = .ok (some ⟨"", b, "1.0", "", "", some c, none, none⟩) :=
    get_highest_of_find_singleton _ b (cyclePkg b c) v10 hfb hv10
  have hhc : (cycleIndex a b c).get_highest_available_version c
      = .ok (some ⟨"", c, "1.0", "", "", some a, none, none⟩) :=
    get_highest_of_find_singleton _ c (cyclePkg c a) v10 hfc hv10
  have hda : (RepositoryPackage.mk "" a "1.0" "" "" (some b) none none).get_dependencies
      = [b] := cyclePkg_dependencies a b hgb
  have hdb : (RepositoryPackage.mk "" b "1.0" "" "" (some c) none none).get_dependencies
      = [c] := cyclePkg_dependencies b c hgc
  have hdc : (RepositoryPackage.mk "" c "1.0" "" "" (some a) none none).get_dependencies
      = [a] := cyclePkg_dependencies c a hga
  intro fuel
  simp [visit, hha, hhb, hhc, hda, hdb, hdc, cyclePkg, indexSetInsert,
    List.erase_cons, hab, hbc, hac, Ne.symm hab, Ne.symm hbc, Ne.symm hac]

/-- C5 (witness): the cycle on the concrete names `aa`, `bb`, `cc`
with fuel 3. -/
theorem C5_cycle_witness :
    visit 3 "aa" false [] (cycleIndex "aa" "bb" "cc") ⟨[], [], []⟩
      = some (.ok ⟨[⟨cyclePkg "aa" "bb", "aa"⟩, ⟨cyclePkg "bb" "cc", "aa"⟩,
          ⟨cyclePkg "cc" "aa", "aa"⟩], [],
          [.added (cyclePkg "aa" "bb") [], .added (cyclePkg "bb" "cc") ["aa"],
           .added (cyclePkg "cc" "aa") ["aa", "bb"]]⟩) :=
  C5_cycle "aa" "bb" "cc" (by decide) (by decide) (by decide) (by decide) (by decide)
    (by decide) 0
